import Mathlib

/-!
# A shallow embedding of `origin/hashing.hpp`

This file models the hash-append framework of `asutton/hashing` (an
implementation of Hinnant's "Types don't know #" design) and proves, or
refutes, the specification's claims about it.

Modelling conventions:

* A byte is a `Nat` (value of C++ `unsigned char`); the in-memory storage of
  a `size`-byte scalar holding the numeric bit pattern `v` is its
  little-endian byte decomposition `toBytesLE size v` (the spec's own
  examples fix the little-endian reading).
* `debug_hasher` is the reference accumulator of the source: its
  `operator()(key, len)` appends the `len` bytes at `key` to the internal
  vector `buf_`; since the embedding passes byte lists instead of
  pointer/length pairs, the call takes the byte list the C++ call would read.
* Floating-point values are modelled by their bit pattern: a `size`-byte
  IEEE value compares equal to zero exactly when its pattern is `+0`
  (all bits clear) or `-0` (sign bit only), which `fpEqZero` captures.
* Each C++ `hash_append` overload becomes one Lean definition carrying the
  same control structure: the loops become structural recursion over lists.
-/

namespace origin

/-- The debug hasher: records the bytes appended by each hash-append call in
an underlying byte sequence (`std::vector<byte> buf_`). -/
structure debug_hasher where
  buf_ : List Nat
deriving DecidableEq, Repr

/-- `debug_hasher::operator()(key, len)`: insert the `len` bytes starting at
`key` at the end of `buf_`. The embedding receives those bytes as a list. -/
def debug_hasher.call (h : debug_hasher) (key : List Nat) : debug_hasher :=
  ⟨h.buf_ ++ key⟩

/-- `debug_hasher::value()`: return the recorded byte sequence. -/
def debug_hasher.value (h : debug_hasher) : List Nat :=
  h.buf_

/-- Little-endian storage of a `size`-byte scalar whose numeric bit pattern
is `v`: byte `i` is `v / 256^i % 256`. -/
def toBytesLE : Nat → Nat → List Nat
  | 0, _ => []
  | size + 1, v => (v % 256) :: toBytesLE size (v / 256)

/-- An IEEE floating-point value of `size` bytes compares equal to `0`
exactly when its bit pattern is `+0` (all zeros) or `-0` (sign bit only,
the pattern `2^(8*size - 1)`). -/
def fpEqZero (size bits : Nat) : Bool :=
  bits == 0 || bits == 2 ^ (8 * size - 1)

/-- `hash_append` for a trivially comparable scalar `t` of `size` bytes:
`h(std::addressof(t), sizeof(t))` absorbs the value's raw storage. -/
def hash_append_tc (h : debug_hasher) (size v : Nat) : debug_hasher :=
  h.call (toBytesLE size v)

/-- `hash_append` for a floating-point `t` (bit pattern `bits`, `size`
bytes): `if (t == 0) t = 0; h(std::addressof(t), sizeof(t))`. -/
def hash_append_fp (h : debug_hasher) (size bits : Nat) : debug_hasher :=
  h.call (toBytesLE size (if fpEqZero size bits then 0 else bits))

/-- `hash_append` for an array of trivially comparable elements:
`h(a, sizeof(a))` absorbs the whole backing store, i.e. the `N * size`
bytes formed by the elements' storage laid out contiguously. -/
def hash_append_tc_array (h : debug_hasher) (size : Nat) (elts : List Nat) :
    debug_hasher :=
  h.call ((elts.map (toBytesLE size)).flatten)

/-- A hashable value, by the value-type category its static dispatch
selects: a trivially comparable scalar, a floating-point scalar, or an
array of trivially comparable elements (each tagged with its element
byte size and bit patterns). -/
inductive HVal where
  | scalar (size v : Nat)
  | fp (size bits : Nat)
  | tcArr (size : Nat) (elts : List Nat)
deriving DecidableEq, Repr

/-- Single-value `hash_append` dispatch: selects the overload matching the
value's category. -/
def hashAppend (h : debug_hasher) : HVal → debug_hasher
  | .scalar size v => hash_append_tc h size v
  | .fp size bits => hash_append_fp h size bits
  | .tcArr size elts => hash_append_tc_array h size elts

/-- The bytes a single value contributes to any accumulator (the overloads
above each absorb exactly one span). -/
def encodeHVal : HVal → List Nat
  | .scalar size v => toBytesLE size v
  | .fp size bits => toBytesLE size (if fpEqZero size bits then 0 else bits)
  | .tcArr size elts => (elts.map (toBytesLE size)).flatten

/-- Iterator-range `hash_append`: `while (first != last) { hash_append(h,
*first); ++first; }`, the range given as the list of values it traverses. -/
def hash_append_range (h : debug_hasher) : List HVal → debug_hasher
  | [] => h
  | v :: vs => hash_append_range (hashAppend h v) vs

/-- Variadic `hash_append(h, t0, t1, ts...)`: `hash_append(h, t0);
hash_append(h, t1, ts...);` — the tail call falls back to the single-value
dispatch once only one argument remains. -/
def hash_append_variadic (h : debug_hasher) (t0 : HVal) :
    List HVal → debug_hasher
  | [] => hashAppend h t0
  | t1 :: ts => hash_append_variadic (hashAppend h t0) t1 ts

/-- Pointer-range `hash_append` for trivially comparable `T` (the
"optimization" overload): `h(first, last - first)` absorbs `last - first`
bytes starting at `first`, i.e. the first `elems.length` bytes of the
contiguous element storage — the element count is passed where the byte
length is expected. -/
def hash_append_ptr_range (h : debug_hasher) (size : Nat) (elems : List Nat) :
    debug_hasher :=
  h.call (((elems.map (toBytesLE size)).flatten).take elems.length)

/-- The general-array `hash_append` overload as written in the source:
`for (T const& x : a) hash_append(h, a);` — each loop iteration re-hashes
the whole array `a` (the element `x` is never used), so the recursion
never reaches a base case. The embedding makes the recursion explicit
with a fuel parameter: `none` means the computation did not finish within
`fuel` nested calls. -/
def hash_append_array_general (fuel : Nat) (h : debug_hasher)
    (a : List HVal) : Option debug_hasher :=
  match fuel with
  | 0 => none
  | fuel + 1 =>
      a.foldl (fun acc _x => acc.bind fun s => hash_append_array_general fuel s a)
        (some h)

/-- The C++ type grammar the classifier `trivially_comparable` is applied to
in this library: integral scalars, floating-point scalars, pointers,
arrays, and user-defined compound types (identified by a tag). -/
inductive CType where
  | integral
  | floating
  | pointer (pointee : CType)
  | array (elem : CType) (n : Nat)
  | user (tag : Nat)
deriving DecidableEq, Repr

/-- `std::remove_extent_t`: strips one array extent, the identity on
non-array types. -/
def remove_extent : CType → CType
  | .array e _ => e
  | t => t

/-- The `trivially_comparable` trait: the primary template is
`std::false_type`; integral types and pointers specialize to
`std::true_type`; `T[N]` specializes to
`trivially_comparable_t<std::remove_extent_t<T>>`. -/
def trivially_comparable : CType → Bool
  | .integral => true
  | .floating => false
  | .pointer _ => true
  | .array e _ => trivially_comparable (remove_extent e)
  | .user _ => false
decreasing_by
  rename_i e _
  cases e <;> simp [remove_extent] <;> omega

end origin

namespace origin

/-- The storage of a `size`-byte scalar is exactly `size` bytes long. -/
theorem toBytesLE_length (size v : Nat) : (toBytesLE size v).length = size := by
  induction size generalizing v with
  | zero => rfl
  | succ n ih => simp [toBytesLE, ih]

/-- Each single-value dispatch appends exactly that value's encoding. -/
theorem hashAppend_buf (h : debug_hasher) (v : HVal) :
    (hashAppend h v).buf_ = h.buf_ ++ encodeHVal v := by
  cases v <;> rfl

/-- The iterator-range overload appends the concatenation of the traversed
values' encodings, in traversal order. -/
theorem hash_append_range_buf (vs : List HVal) (h : debug_hasher) :
    (hash_append_range h vs).buf_ = h.buf_ ++ (vs.map encodeHVal).flatten := by
  induction vs generalizing h with
  | nil => simp [hash_append_range]
  | cons v vs ih =>
      simp [hash_append_range, ih, hashAppend_buf]

/-- The variadic overload appends the concatenation of the arguments'
encodings, in left-to-right order. -/
theorem hash_append_variadic_buf (ts : List HVal) (t0 : HVal)
    (h : debug_hasher) :
    (hash_append_variadic h t0 ts).buf_ =
      h.buf_ ++ ((t0 :: ts).map encodeHVal).flatten := by
  induction ts generalizing t0 h with
  | nil => simp [hash_append_variadic, hashAppend_buf]
  | cons t1 ts ih =>
      simp [hash_append_variadic, ih, hashAppend_buf]

/-- Folding the buggy array body over any remaining elements cannot recover
once the accumulated state is `none`. -/
theorem hash_append_array_general_foldl_none (fuel : Nat) (a : List HVal)
    (l : List HVal) :
    l.foldl
      (fun acc _x => acc.bind fun s => hash_append_array_general fuel s a)
      none = none := by
  induction l with
  | nil => rfl
  | cons y l ih => simpa using ih

/-- Unfolding lemma for the array case of the trait. -/
theorem trivially_comparable_array_eq (e : CType) (n : Nat) :
    trivially_comparable (.array e n) = trivially_comparable (remove_extent e) := by
  rw [trivially_comparable]

/-- `trivially_comparable` is invariant under stripping one array extent. -/
theorem trivially_comparable_remove_extent (e : CType) :
    trivially_comparable (remove_extent e) = trivially_comparable e := by
  induction e with
  | array e' m ih =>
      show trivially_comparable e' = trivially_comparable (.array e' m)
      rw [trivially_comparable_array_eq, ih]
  | integral => rfl
  | floating => rfl
  | pointer t => rfl
  | user tag => rfl

end origin

namespace origin

/-- C1: for every floating-point width and every bit pattern that compares
equal to zero (`+0` or `-0`), the floating-point overload absorbs the same
byte sequence, and yields the same recorded Result Value, as hashing `+0`. -/
theorem fp_zero_values_hash_like_pos_zero :
    ∀ (h : debug_hasher) (size bits : Nat), fpEqZero size bits = true →
      hash_append_fp h size bits = hash_append_fp h size 0 ∧
      (hash_append_fp h size bits).value = (hash_append_fp h size 0).value := by
  intro h size bits hz
  have e : hash_append_fp h size bits = hash_append_fp h size 0 := by
    simp [hash_append_fp, hz]
  exact ⟨e, by rw [e]⟩

/-- C1 witness: the negative zero of a 8-byte double (sign bit only,
pattern `2^63`) compares equal to zero and hashes exactly like `+0.0`. -/
theorem fp_zero_values_hash_like_pos_zero_witness :
    fpEqZero 8 (2 ^ 63) = true ∧
    (hash_append_fp ⟨[]⟩ 8 (2 ^ 63) = hash_append_fp ⟨[]⟩ 8 0 ∧
      (hash_append_fp ⟨[]⟩ 8 (2 ^ 63)).value =
        (hash_append_fp ⟨[]⟩ 8 0).value) :=
  ⟨by decide, fp_zero_values_hash_like_pos_zero ⟨[]⟩ 8 (2 ^ 63) (by decide)⟩

/-- C2 (refuted as written; code bug): on the three-element `int` range
`{1, 2, 3}` (4-byte elements) the pointer-range overload absorbs only
`last - first = 3` bytes — `01 00 00` — because it passes the element
count where `h` expects a byte length, while the general element-by-element
rule absorbs the full 12 bytes; the two differ. -/
theorem ptr_range_diverges_from_element_rule :
    hash_append_ptr_range ⟨[]⟩ 4 [1, 2, 3] ≠
      hash_append_range ⟨[]⟩ ([1, 2, 3].map (HVal.scalar 4)) ∧
    (hash_append_ptr_range ⟨[]⟩ 4 [1, 2, 3]).value = [1, 0, 0] ∧
    (hash_append_range ⟨[]⟩ ([1, 2, 3].map (HVal.scalar 4))).value =
      [1, 0, 0, 0, 2, 0, 0, 0, 3, 0, 0, 0] := by
  decide

/-- C3 (code bug): the general-array overload's loop body hashes the whole
array instead of the current element, so on any non-empty array the
recursion never terminates: for every fuel bound the computation fails to
finish. -/
theorem array_general_overload_never_terminates :
    ∀ (fuel : Nat) (h : debug_hasher) (a : List HVal), a ≠ [] →
      hash_append_array_general fuel h a = none := by
  intro fuel
  induction fuel with
  | zero => intro h a _; rfl
  | succ fuel ih =>
      intro h a ha
      obtain ⟨x, rest, rfl⟩ := List.exists_cons_of_ne_nil ha
      have h1 : hash_append_array_general fuel h (x :: rest) = none :=
        ih h (x :: rest) (by simp)
      simp only [hash_append_array_general, List.foldl_cons, Option.some_bind, h1]
      exact hash_append_array_general_foldl_none fuel (x :: rest) rest

/-- C3 witness: a two-element array of doubles (a hashable element type that
is not trivially comparable) never finishes, here within five nested calls. -/
theorem array_general_overload_never_terminates_witness :
    ([HVal.fp 8 0, HVal.fp 8 (2 ^ 62)] ≠ ([] : List HVal)) ∧
    hash_append_array_general 5 ⟨[]⟩ [HVal.fp 8 0, HVal.fp 8 (2 ^ 62)] =
      none :=
  ⟨by decide,
    array_general_overload_never_terminates 5 ⟨[]⟩
      [HVal.fp 8 0, HVal.fp 8 (2 ^ 62)] (by decide)⟩

/-- C4: the iterator-range overload over trivially comparable elements
absorbs exactly the concatenation of each element's storage, in traversal
order, with no length prefix or terminator; in particular the int sequence
`{1, 2, 3}` absorbs `01 00 00 00 02 00 00 00 03 00 00 00` and the character
sequence "abcdef" absorbs exactly `61 62 63 64 65 66`. -/
theorem range_absorbs_concatenation :
    (∀ (h : debug_hasher) (size : Nat) (elems : List Nat),
        (hash_append_range h (elems.map (HVal.scalar size))).buf_ =
          h.buf_ ++ (elems.map (toBytesLE size)).flatten) ∧
    (hash_append_range ⟨[]⟩ ([1, 2, 3].map (HVal.scalar 4))).value =
      [1, 0, 0, 0, 2, 0, 0, 0, 3, 0, 0, 0] ∧
    (hash_append_range ⟨[]⟩
        ([0x61, 0x62, 0x63, 0x64, 0x65, 0x66].map (HVal.scalar 1))).value =
      [0x61, 0x62, 0x63, 0x64, 0x65, 0x66] := by
  refine ⟨fun h size elems => ?_, by decide, by decide⟩
  have e : encodeHVal ∘ HVal.scalar size = toBytesLE size :=
    funext fun v => rfl
  rw [hash_append_range_buf, List.map_map, e]

/-- C5: hashing a trivially comparable scalar absorbs exactly `sizeof(v)`
bytes equal bit-for-bit to the value's storage; e.g. the 4-byte integer `5`
absorbs `05 00 00 00`. -/
theorem tc_scalar_absorbs_raw_storage :
    (∀ (h : debug_hasher) (size v : Nat),
        (hash_append_tc h size v).buf_ = h.buf_ ++ toBytesLE size v ∧
        (toBytesLE size v).length = size) ∧
    (hash_append_tc ⟨[]⟩ 4 5).value = [5, 0, 0, 0] :=
  ⟨fun _h size v => ⟨rfl, toBytesLE_length size v⟩, by decide⟩

/-- C6 counterexample: the character `a` (encoding `61`) and the two-element
character array `aa` (encoding `61 61`) are distinct values with distinct
non-empty encodings, yet the variadic overload absorbs the same byte
sequence `61 61 61` in either order — refuting the claim that distinct
non-empty encodings always make the two orders differ. -/
theorem variadic_swap_collision :
    encodeHVal (HVal.scalar 1 0x61) ≠ encodeHVal (HVal.tcArr 1 [0x61, 0x61]) ∧
    encodeHVal (HVal.scalar 1 0x61) ≠ [] ∧
    encodeHVal (HVal.tcArr 1 [0x61, 0x61]) ≠ [] ∧
    HVal.scalar 1 0x61 ≠ HVal.tcArr 1 [0x61, 0x61] ∧
    hash_append_variadic ⟨[]⟩ (HVal.scalar 1 0x61)
        [HVal.tcArr 1 [0x61, 0x61]] =
      hash_append_variadic ⟨[]⟩ (HVal.tcArr 1 [0x61, 0x61])
        [HVal.scalar 1 0x61] := by
  decide

/-- C6 (amended): the variadic overload encodes its arguments strictly left
to right, absorbing the concatenation of their individual encodings; and
for two values whose encodings are distinct, non-empty and of equal length,
the two argument orders absorb different byte sequences. -/
theorem variadic_left_to_right :
    (∀ (h : debug_hasher) (t0 : HVal) (ts : List HVal),
        (hash_append_variadic h t0 ts).buf_ =
          h.buf_ ++ ((t0 :: ts).map encodeHVal).flatten) ∧
    (∀ a b : HVal, encodeHVal a ≠ encodeHVal b →
        (encodeHVal a).length = (encodeHVal b).length →
        (hash_append_variadic ⟨[]⟩ a [b]).value ≠
          (hash_append_variadic ⟨[]⟩ b [a]).value) := by
  refine ⟨fun h t0 ts => hash_append_variadic_buf ts t0 h, ?_⟩
  intro a b hne hlen heq
  apply hne
  rw [debug_hasher.value, debug_hasher.value, hash_append_variadic_buf,
    hash_append_variadic_buf] at heq
  simp at heq
  exact (List.append_inj heq hlen).1

/-- C6 witness: the one-byte scalars `5` and `6` have distinct non-empty
equal-length encodings, and the two argument orders indeed differ. -/
theorem variadic_left_to_right_witness :
    (hash_append_variadic ⟨[]⟩ (HVal.scalar 1 5) [HVal.scalar 1 6]).value ≠
      (hash_append_variadic ⟨[]⟩ (HVal.scalar 1 6) [HVal.scalar 1 5]).value :=
  variadic_left_to_right.2 (HVal.scalar 1 5) (HVal.scalar 1 6)
    (by decide) (by decide)

/-- C7: hashing the same value with two independently constructed fresh
accumulators yields identical Result Values — the result is a function of
the value alone, with no shared or prior state. -/
theorem hash_is_deterministic :
    ∀ (v : HVal) (h1 h2 : debug_hasher), h1.buf_ = [] → h2.buf_ = [] →
      (hashAppend h1 v).value = (hashAppend h2 v).value := by
  intro v h1 h2 e1 e2
  cases h1
  cases h2
  simp only at e1 e2
  subst e1
  subst e2
  rfl

/-- C7 witness: two fresh debug hashers give the 4-byte integer 5 the same
Result Value. -/
theorem hash_is_deterministic_witness :
    (hashAppend ⟨[]⟩ (HVal.scalar 4 5)).value =
      (hashAppend ⟨[]⟩ (HVal.scalar 4 5)).value :=
  hash_is_deterministic (HVal.scalar 4 5) ⟨[]⟩ ⟨[]⟩ rfl rfl

/-- C9: the classifier marks integral types and pointers as uniquely
represented, floating-point types as not, arrays exactly when their element
type is, and user-defined compound types as not (absent an explicit
specialization); being a function on `CType`, it depends only on the type. -/
theorem trivially_comparable_classification :
    trivially_comparable CType.integral = true ∧
    trivially_comparable CType.floating = false ∧
    (∀ t : CType, trivially_comparable (CType.pointer t) = true) ∧
    (∀ (e : CType) (n : Nat),
        trivially_comparable (CType.array e n) = trivially_comparable e) ∧
    (∀ tag : Nat, trivially_comparable (CType.user tag) = false) := by
  refine ⟨by rw [trivially_comparable], by rw [trivially_comparable],
    fun t => by rw [trivially_comparable], fun e n => ?_,
    fun tag => by rw [trivially_comparable]⟩
  rw [trivially_comparable_array_eq, trivially_comparable_remove_extent]

/-- C10: an empty iterator range absorbs no bytes and leaves the
accumulator's state (and hence its Result Value) exactly unchanged. -/
theorem empty_range_leaves_state_unchanged :
    ∀ h : debug_hasher,
      hash_append_range h [] = h ∧
      (hash_append_range h []).value = h.value :=
  fun _h => ⟨rfl, rfl⟩

end origin
